import Mathlib

/-!
Verification of the markdown link validator (`scripts/validate_links.py`).

The embedding models Python strings as `List Char` and POSIX `pathlib.Path`
values as a flag for absoluteness together with a list of path segments,
mirroring `PurePosixPath.parts` (without the leading `/` part).  All path
operations used by the script (`/` join, `.parent`, `.resolve()` on
symlink-free trees, `str()`, `.relative_to`, `.exists()` against an abstract
file system, `str.lstrip('/')`, `str.split('#')`) are translated directly.
Fallible Python code (exceptions) is modelled with `Except`.
-/

set_option autoImplicit false

namespace ValidateLinks

/-- A Python string, represented as its list of characters. -/
abbrev Str := List Char

/-- Python `str.startswith`. -/
def startsWith : Str → Str → Bool
  | [], _ => true
  | _ :: _, [] => false
  | p :: ps, c :: cs => p = c && startsWith ps cs

/-- Python `s.split('#')[0]`: the prefix of `s` before the first `'#'`. -/
def cutHash : Str → Str
  | [] => []
  | c :: cs => if c = '#' then [] else c :: cutHash cs

/-- Python `s.lstrip('/')`: drop every leading `'/'`. -/
def lstripSlash : Str → Str
  | [] => []
  | c :: cs => if c = '/' then lstripSlash cs else c :: cs

/-- Python `s.split(c)`: split on every occurrence of `c`, keeping empty
pieces.  The result is always nonempty. -/
def splitChar (c : Char) : Str → List Str
  | [] => [[]]
  | x :: xs =>
    if x = c then [] :: splitChar c xs
    else (x :: (splitChar c xs).headI) :: (splitChar c xs).tail

/-- Python `c.join(pieces)` (used to model `str()` of a path). -/
def joinChar (c : Char) : List Str → Str
  | [] => []
  | [s] => s
  | s :: ss => s ++ c :: joinChar c ss

/-- Segments kept by `pathlib` when parsing: nonempty and not `"."`. -/
def keepSeg (t : Str) : Bool := decide (t ≠ [] ∧ t ≠ ['.'])

/-- The segments `pathlib` parses out of a string: split on `'/'`, dropping
empty pieces and `"."` pieces. -/
def parseSegs (s : Str) : List Str := (splitChar '/' s).filter keepSeg

/-- Does the string denote an absolute POSIX path (leading `'/'`)? -/
def isAbsStr : Str → Bool
  | [] => false
  | c :: _ => c = '/'

/-- All pieces of a list of strings but the last. -/
def initS : List Str → List Str
  | [] => []
  | [_] => []
  | s :: ss => s :: initS ss

/-- The last piece of a list of strings (`[]` for the empty list). -/
def lastS : List Str → Str
  | [] => []
  | [s] => s
  | _ :: ss => lastS ss

/-- A `pathlib.PurePosixPath`: absoluteness flag plus parsed segments. -/
structure PyPath where
  abs : Bool
  segs : List Str
deriving DecidableEq, Repr

/-- `pathlib.Path(s)` for a string `s`. -/
def pathOfStr (s : Str) : PyPath := ⟨isAbsStr s, parseSegs s⟩

/-- Python `str(path)` for a `PurePosixPath`. -/
def pathStr (p : PyPath) : Str :=
  if p.abs then '/' :: joinChar '/' p.segs
  else if p.segs = [] then ['.'] else joinChar '/' p.segs

/-- Python `path / s`: parse `s` and append its segments; an absolute `s`
replaces the whole path (POSIX `pathlib` semantics). -/
def joinStr (p : PyPath) (s : Str) : PyPath :=
  if isAbsStr s then ⟨true, parseSegs s⟩ else ⟨p.abs, p.segs ++ parseSegs s⟩

/-- Python `path.parent`: drop the last segment. -/
def parentPath (p : PyPath) : PyPath := ⟨p.abs, p.segs.dropLast⟩

/-- Lexical collapse of `".."` segments, as `os.path.realpath` performs on a
symlink-free tree (at the root, `".."` stays at the root). -/
def collapseSegs (segs : List Str) : List Str :=
  segs.foldl (fun acc t => if t = ['.', '.'] then acc.dropLast else acc ++ [t]) []

/-- Python `path.resolve()` for an absolute path on a symlink-free tree:
collapse `".."` segments lexically. -/
def resolvePath (p : PyPath) : PyPath := ⟨p.abs, collapseSegs p.segs⟩

/-- Python `path.exists()`, against an abstract file system given as the
list of (resolved) paths that exist. -/
def pathExists (fs : List PyPath) (p : PyPath) : Bool := decide (resolvePath p ∈ fs)

/-- Well-formedness of a stored path segment: nonempty, not `"."`, and
without `'/'`.  Every segment of a path the script builds satisfies it. -/
def WFseg (t : Str) : Prop := t ≠ [] ∧ t ≠ ['.'] ∧ '/' ∉ t

instance (t : Str) : Decidable (WFseg t) :=
  inferInstanceAs (Decidable (t ≠ [] ∧ t ≠ ['.'] ∧ '/' ∉ t))

/-- A Python exception escaping `_validate_link`. -/
inductive PyErr where
  /-- The `ValueError` raised by `Path.relative_to(base)` (carries `str` of
  the path and of the base). -/
  | valueError : Str → Str → PyErr
deriving DecidableEq, Repr

/-- Python `path.relative_to(base)`: succeeds iff `base`'s parts are a
prefix of `path`'s parts, else raises `ValueError`. -/
def relativeTo (p base : PyPath) : Except PyErr PyPath :=
  if p.abs = base.abs ∧ base.segs.isPrefixOf p.segs then
    .ok ⟨false, p.segs.drop base.segs.length⟩
  else .error (.valueError (pathStr p) (pathStr base))

/-- Decimal rendering of a `Nat`, as Python `str(int)`. -/
def natStr (n : Nat) : Str := (Nat.repr n).toList

/-- Outcome of `requests.head(url, timeout=5)`: an HTTP status code, or an
exception carrying its `str(e)` text. -/
inductive Probe where
  | status : Nat → Probe
  | exc : Str → Probe
deriving DecidableEq, Repr

/-- Lines 139-150 of `_validate_link`: the candidate target of an internal
link, before fragment stripping.  `docs_path` is the resolved documentation
root, `file_path` the markdown file containing the link. -/
def rawTarget (docs_path file_path : PyPath) (url : Str) : PyPath :=
  if startsWith ['/'] url then
    joinStr (parentPath docs_path) (lstripSlash url)
  else if startsWith ['.', '/'] url then
    joinStr (parentPath file_path) url
  else if startsWith ['.', '.', '/'] url then
    resolvePath (joinStr (parentPath file_path) url)
  else
    joinStr (parentPath file_path) url

/-- Lines 152-154 of `_validate_link`: if `'#' in str(target)`, re-parse the
part of `str(target)` before the first `'#'`. -/
def stripHashTarget (t : PyPath) : PyPath :=
  if ('#' ∈ pathStr t : Bool) then pathOfStr (cutHash (pathStr t)) else t

/-- The candidate target of an internal link, fragment stripped. -/
def internalTarget (docs_path file_path : PyPath) (url : Str) : PyPath :=
  stripHashTarget (rawTarget docs_path file_path url)

/-- Lines 158-169 of `_validate_link`: the fallback taken when the candidate
target does not exist.  `Path.relative_to` may raise. -/
def fallbackCheck (fs : List PyPath) (docs_path : PyPath) (target : PyPath) :
    Except PyErr Str :=
  match (if target.abs then relativeTo target (parentPath docs_path) else .ok target) with
  | .error e => .error e
  | .ok rel =>
    if pathExists fs (joinStr (parentPath docs_path) (lstripSlash (pathStr rel))) then .ok []
    else .ok ("File not found: ".toList ++ pathStr target)

/-- Lines 156-171 of `_validate_link`: existence check plus fallback. -/
def internalVerdict (fs : List PyPath) (docs_path target : PyPath) : Except PyErr Str :=
  if pathExists fs target then .ok [] else fallbackCheck fs docs_path target

/-- Model of `LinkValidator._validate_link`.  Returns the error string
(empty means the link is fine), or the Python exception that escapes the
call.  `probe` models the network (`requests.head`). -/
def validate_link (strict : Bool) (probe : Str → Probe) (fs : List PyPath)
    (docs_path file_path : PyPath) (url : Str) : Except PyErr Str :=
  if startsWith "mailto:".toList url || startsWith ['#'] url then
    .ok []
  else if startsWith "http://".toList url || startsWith "https://".toList url then
    if strict then
      match probe url with
      | .status code => if 400 ≤ code then .ok ("HTTP ".toList ++ natStr code) else .ok []
      | .exc msg => .ok ("External link check failed: ".toList ++ msg)
    else .ok []
  else
    internalVerdict fs docs_path (internalTarget docs_path file_path url)

/-- One attempt of the regex `\[([^\]]+)\]\(([^)]+)\)` at the character just
after a `'['`: a nonempty run of non-`']'`, then `](`, then a nonempty run
of non-`')'`, then `)`.  Returns display text, url and the rest of the
line. -/
def tryLink (cs : Str) : Option (Str × Str × Str) :=
  match cs.takeWhile (fun c => !(c = ']' : Bool)), cs.dropWhile (fun c => !(c = ']' : Bool)) with
  | t0 :: ts, ']' :: '(' :: rest2 =>
    (match rest2.takeWhile (fun c => !(c = ')' : Bool)),
           rest2.dropWhile (fun c => !(c = ')' : Bool)) with
     | u0 :: us, ')' :: rest3 => some (t0 :: ts, u0 :: us, rest3)
     | _, _ => none)
  | _, _ => none

/-- Scanner for `re.finditer` of the link regex: try a match at each
position left to right; on success continue after the match, on failure
advance one character.  The fuel starts at `length + 1` and every step
consumes at least one character, so it never runs out. -/
def findLinksAux : Nat → Str → List (Str × Str)
  | 0, _ => []
  | _ + 1, [] => []
  | fuel + 1, c :: rest =>
    if c = '[' then
      match tryLink rest with
      | some (t, u, rest') => (t, u) :: findLinksAux fuel rest'
      | none => findLinksAux fuel rest
    else findLinksAux fuel rest

/-- All links `self.link_regex.finditer(line)` extracts from one line. -/
def findLinks (cs : Str) : List (Str × Str) := findLinksAux (cs.length + 1) cs

/-- One entry of a file result's `errors` list. -/
inductive ErrEntry where
  /-- Entry `"Cannot read file: {e}"` for a file whose `read_text` raised. -/
  | readErr : Str → ErrEntry
  /-- A link error entry: line number, display text, url, error string. -/
  | linkErr : Nat → Str → Str → Str → ErrEntry
deriving DecidableEq, Repr

/-- The dict built by `validate_file`. -/
structure FileResult where
  file : PyPath
  errors : List ErrEntry
  warnings : List Str
  fixed : List Str
deriving DecidableEq, Repr

/-- A discovered markdown file: its path and the outcome of
`read_text` (`.error e` models a raised exception with text `e`). -/
structure MdFile where
  path : PyPath
  content : Except Str Str
deriving Repr

/-- The error entries produced by the links of a single line. -/
def lineErrors (strict : Bool) (probe : Str → Probe) (fs : List PyPath)
    (docs_path file_path : PyPath) (lineNum : Nat) :
    List (Str × Str) → Except PyErr (List ErrEntry)
  | [] => .ok []
  | (t, u) :: rest => do
    let e ← validate_link strict probe fs docs_path file_path u
    let tail ← lineErrors strict probe fs docs_path file_path lineNum rest
    pure (if e.isEmpty then tail else .linkErr lineNum t u e :: tail)

/-- The error entries produced by a list of lines, numbered from `n`. -/
def linesErrors (strict : Bool) (probe : Str → Probe) (fs : List PyPath)
    (docs_path file_path : PyPath) (n : Nat) :
    List Str → Except PyErr (List ErrEntry)
  | [] => .ok []
  | l :: rest => do
    let es ← lineErrors strict probe fs docs_path file_path n (findLinks l)
    let more ← linesErrors strict probe fs docs_path file_path (n + 1) rest
    pure (es ++ more)

/-- Model of `LinkValidator.validate_file`: the `errors` list collects the read
failure or every link whose `_validate_link` returned a nonempty string;
`warnings` and `fixed` are initialised empty.  An exception escaping
`_validate_link` escapes `validate_file` too (only `read_text` is guarded
by `try`). -/
def validate_file (strict : Bool) (probe : Str → Probe) (fs : List PyPath)
    (docs_path : PyPath) : MdFile → Except PyErr FileResult
  | ⟨path, .error e⟩ => .ok ⟨path, [.readErr ("Cannot read file: ".toList ++ e)], [], []⟩
  | ⟨path, .ok content⟩ => do
    let errs ← linesErrors strict probe fs docs_path path 1 (splitChar '\n' content)
    pure ⟨path, errs, [], []⟩

/-- Model of `LinkValidator.generate_report`: total error, warning and fixed
counts over all file results. -/
def generate_report (results : List FileResult) : Nat × Nat × Nat :=
  (results.foldl (fun a r => a + r.errors.length) 0,
   results.foldl (fun a r => a + r.warnings.length) 0,
   results.foldl (fun a r => a + r.fixed.length) 0)

/-- The `for file_path in files` loop of `validate_all`: validate each file
in order, collecting the results; an exception escaping `validate_file`
escapes the loop. -/
def validate_files (strict : Bool) (probe : Str → Probe) (fs : List PyPath)
    (docs_path : PyPath) : List MdFile → Except PyErr (List FileResult)
  | [] => .ok []
  | f :: rest => do
    let r ← validate_file strict probe fs docs_path f
    let rs ← validate_files strict probe fs docs_path rest
    pure (r :: rs)

/-- Model of `LinkValidator.validate_all`: exit `2` when the root does not
exist (checked first), exit `0` when no markdown files were found, otherwise
validate every file in order and exit `1` iff any error was recorded.
The discovered markdown files are passed in as `files` (the script obtains
them from `rglob`, sorted). -/
def validate_all (strict : Bool) (probe : Str → Probe) (fs : List PyPath)
    (docs_path : PyPath) (files : List MdFile) : Except PyErr Nat :=
  if !pathExists fs docs_path then .ok 2
  else if files.isEmpty then .ok 0
  else do
    let results ← validate_files strict probe fs docs_path files
    pure (if 0 < (generate_report results).1 then 1 else 0)

deriving instance DecidableEq for Except

/-- Modelled from the spec: the alternate target of the fallback heuristic as
the specification words it — "reinterpret the already-resolved candidate path
as if it were itself relative to the project root (strip any leading path
separator and re-join against the project root)".  This is the statement to
compare with the code's fallback in `fallbackCheck`, which instead calls
`Path.relative_to` on the candidate. -/
def claimAltTarget (docs_path target : PyPath) : PyPath :=
  joinStr (parentPath docs_path) (lstripSlash (pathStr target))

/-- Example project root `/proj`. -/
def exProj : PyPath := ⟨true, ["proj".toList]⟩

/-- Example documentation root `/proj/docs`. -/
def exDocs : PyPath := ⟨true, ["proj".toList, "docs".toList]⟩

/-- Example markdown file `/proj/docs/a.md`. -/
def exFile : PyPath := ⟨true, ["proj".toList, "docs".toList, "a.md".toList]⟩

/-- Example file system holding `/`, `/proj`, `/proj/docs` and
`/proj/docs/a.md`. -/
def exFs : List PyPath := [⟨true, []⟩, exProj, exDocs, exFile]

/-- Example file system that additionally holds `/proj/proj/docs/b.md`
(and its parent directories). -/
def exFs2 : List PyPath := exFs ++
  [⟨true, ["proj".toList, "proj".toList]⟩,
   ⟨true, ["proj".toList, "proj".toList, "docs".toList]⟩,
   ⟨true, ["proj".toList, "proj".toList, "docs".toList, "b.md".toList]⟩]

/-- Example probe answering HTTP 200 to every request. -/
def exProbe : Str → Probe := fun _ => .status 200

/-! ### Lemmas about the string primitives -/

theorem startsWith_ne_head {p q : Char} {ps qs s : Str} (hpq : q ≠ p)
    (h : startsWith (p :: ps) s = true) : startsWith (q :: qs) s = false := by
  cases s with
  | nil => rfl
  | cons c cs =>
    have hp : p = c := by
      by_contra hne
      simp [startsWith, hne] at h
    have hq : q ≠ c := fun hqc => hpq (hqc.trans hp.symm)
    simp [startsWith, hq]

theorem splitChar_ne_nil (c : Char) (s : Str) : splitChar c s ≠ [] := by
  cases s with
  | nil => simp [splitChar]
  | cons x xs =>
    by_cases hx : x = c <;> simp [splitChar, hx]

theorem headI_cons_tail {l : List Str} (h : l ≠ []) : l.headI :: l.tail = l := by
  cases l with
  | nil => exact absurd rfl h
  | cons a as => rfl

theorem splitChar_of_not_mem {c : Char} {s : Str} (h : c ∉ s) : splitChar c s = [s] := by
  induction s with
  | nil => rfl
  | cons x xs ih =>
    have hx : ¬x = c := fun he => h (he ▸ List.mem_cons_self x xs)
    have hxs : c ∉ xs := fun hm => h (List.mem_cons_of_mem x hm)
    rw [splitChar, if_neg hx, ih hxs]
    rfl

theorem splitChar_append_sep {c : Char} {s : Str} (h : c ∉ s) (t : Str) :
    splitChar c (s ++ c :: t) = s :: splitChar c t := by
  induction s with
  | nil => simp [splitChar]
  | cons x xs ih =>
    have hx : ¬x = c := fun he => h (he ▸ List.mem_cons_self x xs)
    have hxs : c ∉ xs := fun hm => h (List.mem_cons_of_mem x hm)
    rw [List.cons_append, splitChar, if_neg hx, ih hxs]
    rfl

theorem splitChar_joinChar {c : Char} :
    ∀ {L : List Str}, (∀ t ∈ L, c ∉ t) → L ≠ [] → splitChar c (joinChar c L) = L := by
  intro L
  induction L with
  | nil => intro _ h; exact absurd rfl h
  | cons s ss ih =>
    intro hmem _
    cases ss with
    | nil => exact splitChar_of_not_mem (hmem s (List.mem_cons_self s []))
    | cons s2 ss2 =>
      have hs : c ∉ s := hmem s (List.mem_cons_self _ _)
      have hrest : ∀ t ∈ s2 :: ss2, c ∉ t := fun t ht => hmem t (List.mem_cons_of_mem s ht)
      rw [joinChar, splitChar_append_sep hs, ih hrest (List.cons_ne_nil _ _)]
      exact List.cons_ne_nil s2 ss2

theorem mem_of_mem_splitChar {c : Char} :
    ∀ {s t : Str}, t ∈ splitChar c s → ∀ x ∈ t, x ∈ s := by
  intro s
  induction s with
  | nil =>
    intro t ht x hx
    simp [splitChar] at ht
    rw [ht] at hx
    exact absurd hx (List.not_mem_nil x)
  | cons y ys ih =>
    intro t ht x hx
    by_cases hy : y = c
    · rw [splitChar, if_pos hy] at ht
      rcases List.mem_cons.mp ht with rfl | ht
      · exact absurd hx (List.not_mem_nil x)
      · exact List.mem_cons_of_mem y (ih ht x hx)
    · rw [splitChar, if_neg hy] at ht
      rcases List.mem_cons.mp ht with rfl | ht
      · rcases List.mem_cons.mp hx with rfl | hx
        · exact List.mem_cons_self x ys
        · have hh : (splitChar c ys).headI ∈ splitChar c ys := by
            have := splitChar_ne_nil c ys
            cases hsp : splitChar c ys with
            | nil => exact absurd hsp this
            | cons a as => simp
          exact List.mem_cons_of_mem y (ih hh x hx)
      · have htail : t ∈ splitChar c ys := by
          have := splitChar_ne_nil c ys
          cases hsp : splitChar c ys with
          | nil => exact absurd hsp this
          | cons a as =>
            rw [hsp] at ht
            exact List.mem_cons_of_mem a (by simpa using ht)
        exact List.mem_cons_of_mem y (ih htail x hx)

theorem not_mem_of_mem_splitChar {c : Char} :
    ∀ {s t : Str}, t ∈ splitChar c s → c ∉ t := by
  intro s
  induction s with
  | nil =>
    intro t ht
    simp [splitChar] at ht
    rw [ht]
    exact List.not_mem_nil c
  | cons y ys ih =>
    intro t ht
    by_cases hy : y = c
    · rw [splitChar, if_pos hy] at ht
      rcases List.mem_cons.mp ht with rfl | ht
      · exact List.not_mem_nil c
      · exact ih ht
    · rw [splitChar, if_neg hy] at ht
      rcases List.mem_cons.mp ht with rfl | ht
      · intro hc
        rcases List.mem_cons.mp hc with he | hc
        · exact hy he.symm
        · have hh : (splitChar c ys).headI ∈ splitChar c ys := by
            have := splitChar_ne_nil c ys
            cases hsp : splitChar c ys with
            | nil => exact absurd hsp this
            | cons a as => simp
          exact ih hh hc
      · have htail : t ∈ splitChar c ys := by
          have := splitChar_ne_nil c ys
          cases hsp : splitChar c ys with
          | nil => exact absurd hsp this
          | cons a as =>
            rw [hsp] at ht
            exact List.mem_cons_of_mem a (by simpa using ht)
        exact ih htail

theorem cutHash_of_not_mem : ∀ {s : Str}, '#' ∉ s → cutHash s = s := by
  intro s
  induction s with
  | nil => intro _; rfl
  | cons c cs ih =>
    intro h
    have hc : ¬c = '#' := fun he => h (he ▸ List.mem_cons_self c cs)
    rw [cutHash, if_neg hc, ih (fun hm => h (List.mem_cons_of_mem c hm))]

theorem not_mem_cutHash : ∀ (s : Str), '#' ∉ cutHash s := by
  intro s
  induction s with
  | nil => exact List.not_mem_nil '#'
  | cons c cs ih =>
    by_cases hc : c = '#'
    · rw [cutHash, if_pos hc]; exact List.not_mem_nil '#'
    · rw [cutHash, if_neg hc]
      intro hm
      rcases List.mem_cons.mp hm with he | hm
      · exact hc he.symm
      · exact ih hm

theorem cutHash_append_no_hash : ∀ {s : Str}, '#' ∉ s → ∀ (t : Str),
    cutHash (s ++ t) = s ++ cutHash t := by
  intro s
  induction s with
  | nil => intro _ t; rfl
  | cons c cs ih =>
    intro h t
    have hc : ¬c = '#' := fun he => h (he ▸ List.mem_cons_self c cs)
    rw [List.cons_append, cutHash, if_neg hc, ih (fun hm => h (List.mem_cons_of_mem c hm)) t]
    rfl

theorem cutHash_hash_append {s : Str} (h : '#' ∉ s) (t : Str) :
    cutHash (s ++ '#' :: t) = s := by
  rw [cutHash_append_no_hash h, cutHash, if_pos rfl, List.append_nil]

theorem cutHash_decomp : ∀ {s : Str}, '#' ∈ s → ∃ r, s = cutHash s ++ '#' :: r := by
  intro s
  induction s with
  | nil => intro h; exact absurd h (List.not_mem_nil _)
  | cons c cs ih =>
    intro h
    by_cases hc : c = '#'
    · exact ⟨cs, by rw [cutHash, if_pos hc, List.nil_append, hc]⟩
    · have hcs : '#' ∈ cs := by
        rcases List.mem_cons.mp h with he | hm
        · exact absurd he.symm hc
        · exact hm
      obtain ⟨r, hr⟩ := ih hcs
      exact ⟨r, by rw [cutHash, if_neg hc, List.cons_append, ← hr]⟩

theorem cutHash_idem (s : Str) : cutHash (cutHash s) = cutHash s :=
  cutHash_of_not_mem (not_mem_cutHash s)

theorem isAbsStr_lstripSlash : ∀ (s : Str), isAbsStr (lstripSlash s) = false := by
  intro s
  induction s with
  | nil => rfl
  | cons c cs ih =>
    by_cases hc : c = '/'
    · rw [lstripSlash, if_pos hc]; exact ih
    · rw [lstripSlash, if_neg hc]
      simp [isAbsStr, hc]

theorem lstripSlash_of_not_abs : ∀ {s : Str}, isAbsStr s = false → lstripSlash s = s := by
  intro s
  cases s with
  | nil => intro _; rfl
  | cons c cs =>
    intro h
    simp only [isAbsStr, decide_eq_false_iff_not] at h
    rw [lstripSlash, if_neg h]

theorem cutHash_lstripSlash_comm : ∀ (s : Str),
    cutHash (lstripSlash s) = lstripSlash (cutHash s) := by
  intro s
  induction s with
  | nil => rfl
  | cons c cs ih =>
    by_cases hc : c = '/'
    · have hch : ¬c = '#' := by rw [hc]; decide
      simp [lstripSlash, cutHash, hc, hch, ih]
    · by_cases hh : c = '#'
      · simp [lstripSlash, cutHash, hc, hh]
      · simp [lstripSlash, cutHash, hc, hh]

theorem isAbsStr_cutHash {s : Str} (h : isAbsStr s = false) :
    isAbsStr (cutHash s) = false := by
  cases s with
  | nil => rfl
  | cons c cs =>
    simp only [isAbsStr, decide_eq_false_iff_not] at h
    by_cases hh : c = '#'
    · rw [cutHash, if_pos hh]; rfl
    · rw [cutHash, if_neg hh]
      simp [isAbsStr, h]

theorem startsWith_cutHash : ∀ {pre : Str}, '#' ∉ pre → ∀ (s : Str),
    startsWith pre (cutHash s) = startsWith pre s := by
  intro pre
  induction pre with
  | nil => intro _ s; rfl
  | cons p ps ih =>
    intro h s
    have hp : ¬p = '#' := fun he => h (he ▸ List.mem_cons_self p ps)
    cases s with
    | nil => rfl
    | cons c cs =>
      by_cases hh : c = '#'
      · rw [cutHash, if_pos hh]
        have : ¬p = c := fun he => hp (he.trans hh)
        simp [startsWith, this]
      · rw [cutHash, if_neg hh, startsWith, startsWith,
            ih (fun hm => h (List.mem_cons_of_mem p hm)) cs]

theorem startsWith_hash_cutHash (s : Str) : startsWith ['#'] (cutHash s) = false := by
  cases s with
  | nil => rfl
  | cons c cs =>
    by_cases hh : c = '#'
    · rw [cutHash, if_pos hh]; rfl
    · rw [cutHash, if_neg hh]
      have hne : ¬('#' = c) := fun he => hh he.symm
      simp [startsWith, hne]

/-! ### Lemmas about the scanner -/

theorem tryLink_nonempty {cs t u r : Str} (h : tryLink cs = some (t, u, r)) :
    t ≠ [] ∧ u ≠ [] := by
  unfold tryLink at h
  split at h
  · split at h
    · simp only [Option.some.injEq, Prod.mk.injEq] at h
      obtain ⟨rfl, rfl, rfl⟩ := h
      exact ⟨List.cons_ne_nil _ _, List.cons_ne_nil _ _⟩
    · exact absurd h (by simp)
  · exact absurd h (by simp)

theorem findLinksAux_nonempty :
    ∀ (fuel : Nat) (cs t u : Str), (t, u) ∈ findLinksAux fuel cs → t ≠ [] ∧ u ≠ [] := by
  intro fuel
  induction fuel with
  | zero => intro cs t u h; simp [findLinksAux] at h
  | succ n ih =>
    intro cs t u h
    cases cs with
    | nil => simp [findLinksAux] at h
    | cons c rest =>
      by_cases hc : c = '['
      · rw [findLinksAux, if_pos hc] at h
        cases htry : tryLink rest with
        | none => rw [htry] at h; exact ih rest t u h
        | some v =>
          obtain ⟨t', u', r'⟩ := v
          rw [htry] at h
          simp only [List.mem_cons, Prod.mk.injEq] at h
          rcases h with ⟨rfl, rfl⟩ | h
          · exact tryLink_nonempty htry
          · exact ih r' t u (by simpa using h)
      · rw [findLinksAux, if_neg hc] at h
        exact ih rest t u h

/-! ### Lemmas about file validation -/

theorem validate_file_no_warn {strict : Bool} {probe : Str → Probe} {fs : List PyPath}
    {docs_path : PyPath} {f : MdFile} {r : FileResult}
    (h : validate_file strict probe fs docs_path f = .ok r) :
    r.warnings = [] ∧ r.fixed = [] := by
  obtain ⟨path, content⟩ := f
  cases content with
  | error e =>
    simp only [validate_file, Except.ok.injEq] at h
    rw [← h]
    exact ⟨rfl, rfl⟩
  | ok content =>
    simp only [validate_file] at h
    cases hl : linesErrors strict probe fs docs_path path 1 (splitChar '\n' content) with
    | error e =>
      rw [hl] at h
      simp [Bind.bind, Except.bind] at h
    | ok errs =>
      rw [hl] at h
      simp only [Bind.bind, Except.bind, pure, Except.pure, Except.ok.injEq] at h
      rw [← h]
      exact ⟨rfl, rfl⟩

theorem validate_files_no_warn {strict : Bool} {probe : Str → Probe} {fs : List PyPath}
    {docs_path : PyPath} :
    ∀ (files : List MdFile) (results : List FileResult),
      validate_files strict probe fs docs_path files = .ok results →
      ∀ r ∈ results, r.warnings = [] ∧ r.fixed = [] := by
  intro files
  induction files with
  | nil =>
    intro results h r hr
    simp only [validate_files, Except.ok.injEq] at h
    rw [← h] at hr
    exact absurd hr (List.not_mem_nil r)
  | cons f rest ih =>
    intro results h r hr
    unfold validate_files at h
    cases h1 : validate_file strict probe fs docs_path f with
    | error e => rw [h1] at h; simp [Bind.bind, Except.bind] at h
    | ok r1 =>
      rw [h1] at h
      cases h2 : validate_files strict probe fs docs_path rest with
      | error e => rw [h2] at h; simp [Bind.bind, Except.bind] at h
      | ok rs =>
        rw [h2] at h
        simp only [Bind.bind, Except.bind, pure, Except.pure, Except.ok.injEq] at h
        rw [← h] at hr
        rcases List.mem_cons.mp hr with rfl | hr
        · exact validate_file_no_warn h1
        · exact ih rs h2 r hr

theorem foldl_add_of_all_zero (g : FileResult → Nat) :
    ∀ (l : List FileResult) (n : Nat), (∀ r ∈ l, g r = 0) →
      l.foldl (fun a r => a + g r) n = n := by
  intro l
  induction l with
  | nil => intro n _; rfl
  | cons x xs ih =>
    intro n hz
    have hx : g x = 0 := hz x (List.mem_cons_self x xs)
    simp only [List.foldl_cons, hx, Nat.add_zero]
    exact ih n (fun r hr => hz r (List.mem_cons_of_mem x hr))


theorem initS_cons₂ (s s2 : Str) (ss2 : List Str) :
    initS (s :: s2 :: ss2) = s :: initS (s2 :: ss2) := rfl

theorem lastS_cons₂ (s s2 : Str) (ss2 : List Str) :
    lastS (s :: s2 :: ss2) = lastS (s2 :: ss2) := rfl

theorem joinChar_cons₂ (c : Char) (s s2 : Str) (ss2 : List Str) :
    joinChar c (s :: s2 :: ss2) = s ++ c :: joinChar c (s2 :: ss2) := rfl

theorem joinChar_cons_of_ne_nil (c : Char) (s : Str) {ss : List Str} (h : ss ≠ []) :
    joinChar c (s :: ss) = s ++ c :: joinChar c ss := by
  cases ss with
  | nil => exact absurd rfl h
  | cons s2 ss2 => exact joinChar_cons₂ c s s2 ss2

theorem cutHash_cons_ne {c : Char} (h : ¬c = '#') (w : Str) :
    cutHash (c :: w) = c :: cutHash w := by
  rw [cutHash, if_neg h]

theorem keepSeg_iff {t : Str} : keepSeg t = true ↔ t ≠ [] ∧ t ≠ ['.'] := by
  simp [keepSeg]

theorem joinStr_not_abs {s : Str} (h : isAbsStr s = false) (p : PyPath) :
    joinStr p s = ⟨p.abs, p.segs ++ parseSegs s⟩ := by
  rw [joinStr, h]
  rfl

theorem parseSegs_no_slash {s : Str} : ∀ t ∈ parseSegs s, '/' ∉ t := by
  intro t ht
  exact not_mem_of_mem_splitChar (List.mem_of_mem_filter ht)

theorem parseSegs_keep {s : Str} : ∀ t ∈ parseSegs s, keepSeg t = true := by
  intro t ht
  exact List.of_mem_filter ht

theorem parseSegs_wfseg {s : Str} : ∀ t ∈ parseSegs s, WFseg t := by
  intro t ht
  have hk := keepSeg_iff.mp (parseSegs_keep t ht)
  exact ⟨hk.1, hk.2, parseSegs_no_slash t ht⟩

theorem mem_parseSegs_chars {s t : Str} (ht : t ∈ parseSegs s) : ∀ x ∈ t, x ∈ s :=
  mem_of_mem_splitChar (List.mem_of_mem_filter ht)

theorem initS_lastS_append : ∀ {S : List Str}, S ≠ [] → initS S ++ [lastS S] = S := by
  intro S
  induction S with
  | nil => intro h; exact absurd rfl h
  | cons s ss ih =>
    intro _
    cases ss with
    | nil => rfl
    | cons s2 ss2 =>
      rw [initS_cons₂, lastS_cons₂, List.cons_append, ih (List.cons_ne_nil _ _)]

theorem mem_initS : ∀ {S : List Str} {t : Str}, t ∈ initS S → t ∈ S := by
  intro S
  induction S with
  | nil => intro t ht; simp [initS] at ht
  | cons s ss ih =>
    intro t ht
    cases ss with
    | nil => simp [initS] at ht
    | cons s2 ss2 =>
      rw [initS_cons₂] at ht
      rcases List.mem_cons.mp ht with rfl | ht
      · exact List.mem_cons_self _ _
      · exact List.mem_cons_of_mem s (ih ht)

theorem lastS_mem : ∀ {S : List Str}, S ≠ [] → lastS S ∈ S := by
  intro S
  induction S with
  | nil => intro h; exact absurd rfl h
  | cons s ss ih =>
    intro _
    cases ss with
    | nil => rw [lastS]; exact List.mem_cons_self _ _
    | cons s2 ss2 =>
      rw [lastS_cons₂]
      exact List.mem_cons_of_mem s (ih (List.cons_ne_nil _ _))

theorem splitChar_append_general (c : Char) :
    ∀ (u v : Str), splitChar c (u ++ v)
      = initS (splitChar c u)
        ++ (lastS (splitChar c u) ++ (splitChar c v).headI) :: (splitChar c v).tail := by
  intro u
  induction u with
  | nil =>
    intro v
    rw [List.nil_append]
    show splitChar c v = initS [[]] ++ (lastS [[]] ++ (splitChar c v).headI) :: (splitChar c v).tail
    rw [initS, lastS, List.nil_append, List.nil_append]
    exact (headI_cons_tail (splitChar_ne_nil c v)).symm
  | cons x xs ih =>
    intro v
    by_cases hx : x = c
    · rw [List.cons_append, splitChar, if_pos hx, ih v, splitChar, if_pos hx]
      cases hS : splitChar c xs with
      | nil => exact absurd hS (splitChar_ne_nil c xs)
      | cons s0 ss =>
        cases ss with
        | nil => rfl
        | cons t0 ts => rfl
    · rw [List.cons_append, splitChar, if_neg hx, ih v, splitChar, if_neg hx]
      cases hS : splitChar c xs with
      | nil => exact absurd hS (splitChar_ne_nil c xs)
      | cons s0 ss =>
        cases ss with
        | nil => rfl
        | cons t0 ts => rfl

theorem mem_joinChar {x c : Char} (hxc : ¬x = c) :
    ∀ (L : List Str), x ∈ joinChar c L ↔ ∃ t ∈ L, x ∈ t := by
  intro L
  induction L with
  | nil => simp [joinChar]
  | cons s ss ih =>
    cases ss with
    | nil => simp [joinChar]
    | cons s2 ss2 =>
      rw [joinChar_cons₂]
      constructor
      · intro hm
        rcases List.mem_append.mp hm with hm | hm
        · exact ⟨s, List.mem_cons_self _ _, hm⟩
        · rcases List.mem_cons.mp hm with he | hm
          · exact absurd he hxc
          · obtain ⟨t, ht, hxt⟩ := ih.mp hm
            exact ⟨t, List.mem_cons_of_mem s ht, hxt⟩
      · intro hex
        obtain ⟨t, ht, hxt⟩ := hex
        rcases List.mem_cons.mp ht with rfl | ht
        · exact List.mem_append.mpr (Or.inl hxt)
        · exact List.mem_append.mpr (Or.inr (List.mem_cons_of_mem _ (ih.mpr ⟨t, ht, hxt⟩)))

theorem cutHash_mid {a : Str} (ha : '#' ∉ a) (z w : Str) :
    cutHash ((a ++ '#' :: z) ++ w) = a := by
  rw [List.append_assoc, List.cons_append]
  exact cutHash_hash_append ha (z ++ w)

theorem cutHash_joinChar_mid {a z : Str} (ha : '#' ∉ a) :
    ∀ {X : List Str}, (∀ t ∈ X, '#' ∉ t) → ∀ (Y : List Str),
      cutHash (joinChar '/' (X ++ (a ++ '#' :: z) :: Y)) = joinChar '/' (X ++ [a]) := by
  intro X
  induction X with
  | nil =>
    intro _ Y
    rw [List.nil_append, List.nil_append]
    cases Y with
    | nil =>
      show cutHash (joinChar '/' [a ++ '#' :: z]) = joinChar '/' [a]
      rw [joinChar, joinChar]
      exact cutHash_hash_append ha z
    | cons y ys =>
      rw [joinChar_cons₂]
      show cutHash ((a ++ '#' :: z) ++ '/' :: joinChar '/' (y :: ys)) = joinChar '/' [a]
      rw [cutHash_mid ha, joinChar]
  | cons s ss ih =>
    intro hX Y
    have hs : '#' ∉ s := hX s (List.mem_cons_self _ _)
    have hss : ∀ t ∈ ss, '#' ∉ t := fun t ht => hX t (List.mem_cons_of_mem s ht)
    have hne1 : ss ++ (a ++ '#' :: z) :: Y ≠ [] := by
      intro hcon
      exact absurd (List.append_eq_nil.mp hcon).2 (List.cons_ne_nil _ _)
    have hne2 : ss ++ [a] ≠ [] := by
      intro hcon
      exact absurd (List.append_eq_nil.mp hcon).2 (List.cons_ne_nil _ _)
    rw [List.cons_append, joinChar_cons_of_ne_nil _ _ hne1,
        cutHash_append_no_hash hs, cutHash_cons_ne (by decide), ih hss Y,
        List.cons_append, joinChar_cons_of_ne_nil _ _ hne2]

theorem pathStr_abs {p : PyPath} (h : p.abs = true) :
    pathStr p = '/' :: joinChar '/' p.segs := by
  rw [pathStr, h]
  rfl

theorem parseSegs_slash_cons (z : Str) : parseSegs ('/' :: z) = parseSegs z := by
  rw [parseSegs, parseSegs, splitChar, if_pos rfl]
  simp [keepSeg]

theorem parseSegs_joinChar {L : List Str} (h : ∀ t ∈ L, '/' ∉ t) (hne : L ≠ []) :
    parseSegs (joinChar '/' L) = L.filter keepSeg := by
  rw [parseSegs, splitChar_joinChar h hne]

theorem filter_keep_of_all {L : List Str} (h : ∀ t ∈ L, keepSeg t = true) :
    L.filter keepSeg = L := List.filter_eq_self.mpr h

theorem stripHashTarget_eq_of_not_mem {t : PyPath} (h : '#' ∉ pathStr t) :
    stripHashTarget t = t := by
  rw [stripHashTarget]
  simp [h]

theorem stripHashTarget_eq_of_mem {t : PyPath} (h : '#' ∈ pathStr t) :
    stripHashTarget t = pathOfStr (cutHash (pathStr t)) := by
  rw [stripHashTarget]
  simp [h]

theorem not_hash_pathStr {P : PyPath} (hP : P.abs = true) (hH : ∀ t ∈ P.segs, '#' ∉ t) :
    '#' ∉ pathStr P := by
  rw [pathStr_abs hP]
  intro hm
  rcases List.mem_cons.mp hm with he | hm
  · exact absurd he (by decide)
  · obtain ⟨t, ht, hx⟩ := (mem_joinChar (by decide) _).mp hm
    exact hH t ht hx

theorem stripHash_joinStr_of_no_hash {P : PyPath} {s : Str}
    (hP : P.abs = true) (hH : ∀ t ∈ P.segs, '#' ∉ t)
    (hs : isAbsStr s = false) (hmem : '#' ∉ s) :
    stripHashTarget (joinStr P s) = joinStr P s := by
  rw [joinStr_not_abs hs]
  apply stripHashTarget_eq_of_not_mem
  refine not_hash_pathStr ?_ ?_
  · exact hP
  · intro t ht
    rcases List.mem_append.mp ht with ht | ht
    · exact hH t ht
    · exact fun hx => hmem (mem_parseSegs_chars ht '#' hx)

theorem stripHash_joinStr_cutHash {P : PyPath} {s : Str}
    (hP : P.abs = true) (hsegW : ∀ t ∈ P.segs, keepSeg t = true)
    (hsegS : ∀ t ∈ P.segs, '/' ∉ t) (hsegH : ∀ t ∈ P.segs, '#' ∉ t)
    (hs : isAbsStr s = false) :
    stripHashTarget (joinStr P s) = joinStr P (cutHash s) := by
  by_cases hmem : '#' ∈ s
  case neg =>
    rw [cutHash_of_not_mem hmem]
    exact stripHash_joinStr_of_no_hash hP hsegH hs hmem
  case pos =>
    obtain ⟨r, hr⟩ := cutHash_decomp hmem
    have hbh : '#' ∉ cutHash s := not_mem_cutHash s
    have hsb : isAbsStr (cutHash s) = false := isAbsStr_cutHash hs
    have hBne : splitChar '/' (cutHash s) ≠ [] := splitChar_ne_nil _ _
    -- abbreviations
    set b := cutHash s with hb
    set B := splitChar '/' b with hB
    set w := (splitChar '/' r).headI with hw
    set W := (splitChar '/' r).tail with hW
    set a := lastS B with haDef
    -- the split of s
    have h1 : splitChar '/' s = initS B ++ (a ++ '#' :: w) :: W := by
      rw [hr]
      rw [splitChar_append_general '/' b ('#' :: r)]
      rw [splitChar, if_neg (by decide : ¬('#' = '/'))]
      rfl
    have haB : a ∈ B := lastS_mem hBne
    have h2 : '#' ∉ a := fun hx => hbh (mem_of_mem_splitChar haB '#' hx)
    have h3 : '/' ∉ a := not_mem_of_mem_splitChar haB
    have h4 : keepSeg (a ++ '#' :: w) = true := by
      apply keepSeg_iff.mpr
      constructor
      · intro hcon
        exact absurd (List.append_eq_nil.mp hcon).2 (List.cons_ne_nil _ _)
      · intro hcon
        have hmm : '#' ∈ a ++ '#' :: w :=
          List.mem_append.mpr (Or.inr (List.mem_cons_self _ _))
        rw [hcon] at hmm
        rcases List.mem_cons.mp hmm with he | hmm
        · exact absurd he (by decide)
        · exact absurd hmm (List.not_mem_nil _)
    have h5 : parseSegs s
        = (initS B).filter keepSeg ++ (a ++ '#' :: w) :: W.filter keepSeg := by
      rw [parseSegs, h1, List.filter_append, List.filter_cons_of_pos h4]
    -- the joined target
    have h6 : joinStr P s
        = ⟨true, (P.segs ++ (initS B).filter keepSeg)
            ++ (a ++ '#' :: w) :: W.filter keepSeg⟩ := by
      rw [joinStr_not_abs hs, h5, List.append_assoc, hP]
    have h7 : ∀ t ∈ P.segs ++ (initS B).filter keepSeg, '#' ∉ t := by
      intro t ht
      rcases List.mem_append.mp ht with ht | ht
      · exact hsegH t ht
      · intro hx
        exact hbh (mem_of_mem_splitChar (mem_initS (List.mem_of_mem_filter ht)) '#' hx)
    have h8 : ∀ t ∈ P.segs ++ (initS B).filter keepSeg, '/' ∉ t := by
      intro t ht
      rcases List.mem_append.mp ht with ht | ht
      · exact hsegS t ht
      · exact not_mem_of_mem_splitChar (mem_initS (List.mem_of_mem_filter ht))
    have h9 : ∀ t ∈ P.segs ++ (initS B).filter keepSeg, keepSeg t = true := by
      intro t ht
      rcases List.mem_append.mp ht with ht | ht
      · exact hsegW t ht
      · exact List.of_mem_filter ht
    have h10 : '#' ∈ pathStr (joinStr P s) := by
      rw [h6, pathStr_abs rfl]
      apply List.mem_cons_of_mem
      apply (mem_joinChar (by decide) _).mpr
      exact ⟨a ++ '#' :: w,
        List.mem_append.mpr (Or.inr (List.mem_cons_self _ _)),
        List.mem_append.mpr (Or.inr (List.mem_cons_self _ _))⟩
    have h11 : cutHash (pathStr (joinStr P s))
        = '/' :: joinChar '/' ((P.segs ++ (initS B).filter keepSeg) ++ [a]) := by
      rw [h6, pathStr_abs rfl, cutHash_cons_ne (by decide)]
      rw [cutHash_joinChar_mid h2 h7]
    have h13 : pathOfStr ('/' :: joinChar '/' ((P.segs ++ (initS B).filter keepSeg) ++ [a]))
        = ⟨true, ((P.segs ++ (initS B).filter keepSeg) ++ [a]).filter keepSeg⟩ := by
      rw [pathOfStr]
      congr 1
      rw [parseSegs_slash_cons]
      apply parseSegs_joinChar
      · intro t ht
        rcases List.mem_append.mp ht with ht | ht
        · exact h8 t ht
        · rcases List.mem_cons.mp ht with rfl | ht
          · exact h3
          · exact absurd ht (List.not_mem_nil t)
      · intro hcon
        exact absurd (List.append_eq_nil.mp hcon).2 (List.cons_ne_nil _ _)
    have h14 : ((P.segs ++ (initS B).filter keepSeg) ++ [a]).filter keepSeg
        = (P.segs ++ (initS B).filter keepSeg) ++ [a].filter keepSeg := by
      rw [List.filter_append, filter_keep_of_all h9]
    have h15 : parseSegs b = (initS B).filter keepSeg ++ [a].filter keepSeg := by
      rw [parseSegs, ← hB]
      conv =>
        lhs
        rw [← initS_lastS_append hBne]
      rw [List.filter_append, ← haDef]
    rw [stripHashTarget_eq_of_mem h10, h11, h13, h14, joinStr_not_abs hsb, h15, hP]
    simp [List.append_assoc]

theorem isAbsStr_eq_startsWith (s : Str) : isAbsStr s = startsWith ['/'] s := by
  cases s with
  | nil => rfl
  | cons c cs =>
    show decide (c = '/') = (decide ('/' = c) && startsWith [] cs)
    rw [startsWith]
    simp [Bool.and_true, decide_eq_decide, eq_comm]

theorem parent_seg_mem {p : PyPath} {t : Str} (ht : t ∈ (parentPath p).segs) : t ∈ p.segs :=
  List.dropLast_subset _ ht

theorem internalTarget_cutHash (docs_path file_path : PyPath) (url : Str)
    (hnp : startsWith ['.', '.', '/'] url = false)
    (hd : docs_path.abs = true) (hf : file_path.abs = true)
    (hwd : ∀ t ∈ docs_path.segs, WFseg t ∧ '#' ∉ t)
    (hwf : ∀ t ∈ file_path.segs, WFseg t ∧ '#' ∉ t) :
    internalTarget docs_path file_path url
      = internalTarget docs_path file_path (cutHash url) := by
  have hDabs : (parentPath docs_path).abs = true := hd
  have hFabs : (parentPath file_path).abs = true := hf
  have hDk : ∀ t ∈ (parentPath docs_path).segs, keepSeg t = true := fun t ht =>
    keepSeg_iff.mpr ⟨(hwd t (parent_seg_mem ht)).1.1, (hwd t (parent_seg_mem ht)).1.2.1⟩
  have hDs : ∀ t ∈ (parentPath docs_path).segs, '/' ∉ t := fun t ht =>
    (hwd t (parent_seg_mem ht)).1.2.2
  have hDh : ∀ t ∈ (parentPath docs_path).segs, '#' ∉ t := fun t ht =>
    (hwd t (parent_seg_mem ht)).2
  have hFk : ∀ t ∈ (parentPath file_path).segs, keepSeg t = true := fun t ht =>
    keepSeg_iff.mpr ⟨(hwf t (parent_seg_mem ht)).1.1, (hwf t (parent_seg_mem ht)).1.2.1⟩
  have hFs : ∀ t ∈ (parentPath file_path).segs, '/' ∉ t := fun t ht =>
    (hwf t (parent_seg_mem ht)).1.2.2
  have hFh : ∀ t ∈ (parentPath file_path).segs, '#' ∉ t := fun t ht =>
    (hwf t (parent_seg_mem ht)).2
  have hnp' : startsWith ['.', '.', '/'] (cutHash url) = false := by
    rw [startsWith_cutHash (by decide) url]
    exact hnp
  unfold internalTarget rawTarget
  cases h1 : startsWith ['/'] url with
  | true =>
    have h1' : startsWith ['/'] (cutHash url) = true := by
      rw [startsWith_cutHash (by decide) url]
      exact h1
    rw [h1', if_pos rfl, if_pos rfl]
    rw [stripHash_joinStr_cutHash hDabs hDk hDs hDh (isAbsStr_lstripSlash url)]
    rw [stripHash_joinStr_cutHash hDabs hDk hDs hDh (isAbsStr_lstripSlash (cutHash url))]
    rw [cutHash_lstripSlash_comm, cutHash_lstripSlash_comm, cutHash_idem]
  | false =>
    have h1' : startsWith ['/'] (cutHash url) = false := by
      rw [startsWith_cutHash (by decide) url]
      exact h1
    have habs : isAbsStr url = false := by rw [isAbsStr_eq_startsWith, h1]
    have habs' : isAbsStr (cutHash url) = false := by
      rw [isAbsStr_eq_startsWith, h1']
    rw [h1', if_neg Bool.false_ne_true, if_neg Bool.false_ne_true]
    cases h2 : startsWith ['.', '/'] url with
    | true =>
      have h2' : startsWith ['.', '/'] (cutHash url) = true := by
        rw [startsWith_cutHash (by decide) url]
        exact h2
      rw [h2', if_pos rfl, if_pos rfl]
      rw [stripHash_joinStr_cutHash hFabs hFk hFs hFh habs]
      rw [stripHash_joinStr_cutHash hFabs hFk hFs hFh habs']
      rw [cutHash_idem]
    | false =>
      have h2' : startsWith ['.', '/'] (cutHash url) = false := by
        rw [startsWith_cutHash (by decide) url]
        exact h2
      rw [h2', if_neg Bool.false_ne_true, if_neg Bool.false_ne_true, hnp, hnp',
          if_neg Bool.false_ne_true, if_neg Bool.false_ne_true]
      rw [stripHash_joinStr_cutHash hFabs hFk hFs hFh habs]
      rw [stripHash_joinStr_cutHash hFabs hFk hFs hFh habs']
      rw [cutHash_idem]

theorem isPrefixOf_append_drop : ∀ (l1 l2 : List Str), l1.isPrefixOf l2 = true →
    l1 ++ l2.drop l1.length = l2 := by
  intro l1
  induction l1 with
  | nil => intro l2 _; rfl
  | cons a as ih =>
    intro l2 h
    cases l2 with
    | nil => simp [List.isPrefixOf] at h
    | cons b bs =>
      simp only [List.isPrefixOf, Bool.and_eq_true, beq_iff_eq] at h
      rw [List.cons_append, List.length_cons, List.drop_succ_cons, ih bs h.2, h.1]

theorem joinStr_abs_true {p : PyPath} {s : Str} (hp : p.abs = true)
    (hs : isAbsStr s = false) : (joinStr p s).abs = true := by
  rw [joinStr_not_abs hs]
  exact hp

theorem resolvePath_abs (p : PyPath) : (resolvePath p).abs = p.abs := rfl

theorem rawTarget_abs {d f : PyPath} (hd : d.abs = true) (hf : f.abs = true) (url : Str) :
    (rawTarget d f url).abs = true := by
  unfold rawTarget
  cases h1 : startsWith ['/'] url with
  | true =>
    rw [if_pos rfl]
    exact joinStr_abs_true hd (isAbsStr_lstripSlash url)
  | false =>
    have habs : isAbsStr url = false := by rw [isAbsStr_eq_startsWith, h1]
    rw [if_neg Bool.false_ne_true]
    cases h2 : startsWith ['.', '/'] url with
    | true =>
      rw [if_pos rfl]
      exact joinStr_abs_true hf habs
    | false =>
      rw [if_neg Bool.false_ne_true]
      cases h3 : startsWith ['.', '.', '/'] url with
      | true =>
        rw [if_pos rfl, resolvePath_abs]
        exact joinStr_abs_true hf habs
      | false =>
        rw [if_neg Bool.false_ne_true]
        exact joinStr_abs_true hf habs

theorem stripHashTarget_abs {t : PyPath} (h : t.abs = true) :
    (stripHashTarget t).abs = true := by
  by_cases hm : '#' ∈ pathStr t
  · rw [stripHashTarget_eq_of_mem hm, pathStr_abs h, cutHash_cons_ne (by decide)]
    show isAbsStr ('/' :: cutHash (joinChar '/' t.segs)) = true
    simp [isAbsStr]
  · rw [stripHashTarget_eq_of_not_mem hm]
    exact h

theorem internalTarget_abs {d f : PyPath} (hd : d.abs = true) (hf : f.abs = true)
    (url : Str) : (internalTarget d f url).abs = true :=
  stripHashTarget_abs (rawTarget_abs hd hf url)

theorem joinStr_wf {p : PyPath} {s : Str} (hp : ∀ t ∈ p.segs, WFseg t)
    (hs : isAbsStr s = false) : ∀ t ∈ (joinStr p s).segs, WFseg t := by
  rw [joinStr_not_abs hs]
  intro t ht
  rcases List.mem_append.mp ht with ht | ht
  · exact hp t ht
  · exact parseSegs_wfseg t ht

theorem collapse_aux_subset : ∀ (l acc : List Str) (t : Str),
    t ∈ l.foldl (fun acc u => if u = ['.', '.'] then acc.dropLast else acc ++ [u]) acc →
    t ∈ acc ∨ t ∈ l := by
  intro l
  induction l with
  | nil => intro acc t ht; exact Or.inl ht
  | cons x xs ih =>
    intro acc t ht
    rw [List.foldl_cons] at ht
    rcases ih _ t ht with hacc | hl
    · by_cases hx : x = ['.', '.']
      · rw [if_pos hx] at hacc
        exact Or.inl (List.dropLast_subset _ hacc)
      · rw [if_neg hx] at hacc
        rcases List.mem_append.mp hacc with h | h
        · exact Or.inl h
        · rcases List.mem_cons.mp h with rfl | h
          · exact Or.inr (List.mem_cons_self _ _)
          · exact absurd h (List.not_mem_nil t)
    · exact Or.inr (List.mem_cons_of_mem x hl)

theorem resolvePath_wf {p : PyPath} (hp : ∀ t ∈ p.segs, WFseg t) :
    ∀ t ∈ (resolvePath p).segs, WFseg t := by
  intro t ht
  rcases collapse_aux_subset p.segs [] t ht with h | h
  · exact absurd h (List.not_mem_nil t)
  · exact hp t h

theorem pathOfStr_wf (s : Str) : ∀ t ∈ (pathOfStr s).segs, WFseg t :=
  parseSegs_wfseg

theorem stripHashTarget_wf {t : PyPath} (h : ∀ u ∈ t.segs, WFseg u) :
    ∀ u ∈ (stripHashTarget t).segs, WFseg u := by
  by_cases hm : '#' ∈ pathStr t
  · rw [stripHashTarget_eq_of_mem hm]
    exact pathOfStr_wf _
  · rw [stripHashTarget_eq_of_not_mem hm]
    exact h

theorem rawTarget_wf {d f : PyPath} (hwd : ∀ t ∈ d.segs, WFseg t)
    (hwf : ∀ t ∈ f.segs, WFseg t) (url : Str) :
    ∀ t ∈ (rawTarget d f url).segs, WFseg t := by
  have hpd : ∀ t ∈ (parentPath d).segs, WFseg t := fun t ht => hwd t (parent_seg_mem ht)
  have hpf : ∀ t ∈ (parentPath f).segs, WFseg t := fun t ht => hwf t (parent_seg_mem ht)
  unfold rawTarget
  cases h1 : startsWith ['/'] url with
  | true =>
    rw [if_pos rfl]
    exact joinStr_wf hpd (isAbsStr_lstripSlash url)
  | false =>
    have habs : isAbsStr url = false := by rw [isAbsStr_eq_startsWith, h1]
    rw [if_neg Bool.false_ne_true]
    cases h2 : startsWith ['.', '/'] url with
    | true =>
      rw [if_pos rfl]
      exact joinStr_wf hpf habs
    | false =>
      rw [if_neg Bool.false_ne_true]
      cases h3 : startsWith ['.', '.', '/'] url with
      | true =>
        rw [if_pos rfl]
        exact resolvePath_wf (joinStr_wf hpf habs)
      | false =>
        rw [if_neg Bool.false_ne_true]
        exact joinStr_wf hpf habs

theorem internalTarget_wf {d f : PyPath} (hwd : ∀ t ∈ d.segs, WFseg t)
    (hwf : ∀ t ∈ f.segs, WFseg t) (url : Str) :
    ∀ t ∈ (internalTarget d f url).segs, WFseg t :=
  stripHashTarget_wf (rawTarget_wf hwd hwf url)

theorem joinChar_head_append (c : Char) (s : Str) (ss : List Str) :
    ∃ w, joinChar c (s :: ss) = s ++ w := by
  cases ss with
  | nil => exact ⟨[], (List.append_nil s).symm⟩
  | cons s2 ss2 => exact ⟨c :: joinChar c (s2 :: ss2), joinChar_cons₂ c s s2 ss2⟩

theorem isAbsStr_joinChar_of_wf {s : Str} (hs : WFseg s) (ss : List Str) :
    isAbsStr (joinChar '/' (s :: ss)) = false := by
  obtain ⟨w, hw⟩ := joinChar_head_append '/' s ss
  rw [hw]
  cases s with
  | nil => exact absurd rfl hs.1
  | cons c0 cs =>
    have hc0 : ¬c0 = '/' := fun he => hs.2.2 (he ▸ List.mem_cons_self c0 cs)
    show decide (c0 = '/') = false
    simp [hc0]

theorem relative_rejoin {DP : PyPath} {segs : List Str}
    (hDabs : DP.abs = true) (hwf : ∀ t ∈ segs, WFseg t) :
    joinStr DP (lstripSlash (pathStr (⟨false, segs⟩ : PyPath))) = ⟨true, DP.segs ++ segs⟩ := by
  cases segs with
  | nil =>
    show joinStr DP (lstripSlash ['.']) = _
    have h1 : lstripSlash ['.'] = ['.'] := by
      rw [lstripSlash, if_neg (by decide : ¬('.' = '/'))]
    rw [h1, joinStr_not_abs (by decide), hDabs]
    have h2 : parseSegs ['.'] = [] := by decide
    rw [h2, List.append_nil]
  | cons s ss =>
    have hwfs : WFseg s := hwf s (List.mem_cons_self _ _)
    have hstr : pathStr (⟨false, s :: ss⟩ : PyPath) = joinChar '/' (s :: ss) := by
      rw [pathStr]
      simp
    have habs : isAbsStr (joinChar '/' (s :: ss)) = false := isAbsStr_joinChar_of_wf hwfs ss
    rw [hstr, lstripSlash_of_not_abs habs, joinStr_not_abs habs, hDabs]
    have hns : ∀ t ∈ s :: ss, '/' ∉ t := fun t ht => (hwf t ht).2.2
    rw [parseSegs_joinChar hns (List.cons_ne_nil _ _)]
    rw [filter_keep_of_all (fun t ht => keepSeg_iff.mpr ⟨(hwf t ht).1, (hwf t ht).2.1⟩)]

theorem fallback_broken {fs : List PyPath} {docs_path target : PyPath}
    (hd : (parentPath docs_path).abs = true) (htabs : target.abs = true)
    (hwf : ∀ t ∈ target.segs, WFseg t)
    (hpre : (parentPath docs_path).segs.isPrefixOf target.segs = true)
    (hne : pathExists fs target = false) :
    fallbackCheck fs docs_path target
      = .ok ("File not found: ".toList ++ pathStr target) := by
  unfold fallbackCheck
  rw [if_pos htabs, relativeTo, if_pos ⟨htabs.trans hd.symm, hpre⟩]
  have hwfd : ∀ t ∈ target.segs.drop (parentPath docs_path).segs.length, WFseg t :=
    fun t ht => hwf t (List.drop_subset _ _ ht)
  show (if pathExists fs (joinStr (parentPath docs_path)
      (lstripSlash (pathStr (⟨false, target.segs.drop (parentPath docs_path).segs.length⟩
        : PyPath)))) = true then _ else _) = _
  rw [relative_rejoin hd hwfd, isPrefixOf_append_drop _ _ hpre]
  have : (⟨true, target.segs⟩ : PyPath) = target := by
    cases target with
    | mk abs segs =>
      rw [PyPath.mk.injEq]
      exact ⟨htabs.symm, rfl⟩
  rw [this, hne, if_neg Bool.false_ne_true]

theorem fallback_raises {fs : List PyPath} {docs_path target : PyPath}
    (htabs : target.abs = true)
    (hpre : (parentPath docs_path).segs.isPrefixOf target.segs = false) :
    fallbackCheck fs docs_path target
      = .error (.valueError (pathStr target) (pathStr (parentPath docs_path))) := by
  unfold fallbackCheck
  have hneg : ¬(target.abs = (parentPath docs_path).abs ∧
      (parentPath docs_path).segs.isPrefixOf target.segs = true) := by
    intro hcon
    rw [hpre] at hcon
    exact Bool.false_ne_true hcon.2
  rw [if_pos htabs, relativeTo, if_neg hneg]

theorem parseSegs_lstripSlash : ∀ (s : Str), parseSegs (lstripSlash s) = parseSegs s := by
  intro s
  induction s with
  | nil => rfl
  | cons c cs ih =>
    by_cases hc : c = '/'
    · rw [lstripSlash, if_pos hc, ih, hc, parseSegs_slash_cons]
    · rw [lstripSlash, if_neg hc]

/-- Claim C1: for every Internal link whose raw URL begins with `/`, the
candidate filesystem target is computed by joining the parent of the
documentation root (the project root) with the URL minus its leading
slashes — its segments are the project root's segments followed by the
URL's — and the whole verdict never depends on the source file's path, so a
same-named file alongside the source is never consulted. -/
theorem c1_absolute_url_uses_project_root (docs_path file_path file_path' : PyPath)
    (url : Str) (h : startsWith ['/'] url = true) :
    rawTarget docs_path file_path url = joinStr (parentPath docs_path) (lstripSlash url)
    ∧ rawTarget docs_path file_path url
        = ⟨(parentPath docs_path).abs, (parentPath docs_path).segs ++ parseSegs url⟩
    ∧ ∀ strict probe fs,
        validate_link strict probe fs docs_path file_path url
          = validate_link strict probe fs docs_path file_path' url := by
  have hm : startsWith "mailto:".toList url = false := startsWith_ne_head (by decide) h
  have ha : startsWith ['#'] url = false := startsWith_ne_head (by decide) h
  have h1 : startsWith "http://".toList url = false := startsWith_ne_head (by decide) h
  have h2 : startsWith "https://".toList url = false := startsWith_ne_head (by decide) h
  simp at hm h1 h2
  have hraw : rawTarget docs_path file_path url
      = joinStr (parentPath docs_path) (lstripSlash url) := by
    unfold rawTarget
    simp [h]
  refine ⟨hraw, ?_, ?_⟩
  · rw [hraw, joinStr_not_abs (isAbsStr_lstripSlash url), parseSegs_lstripSlash]
  · intro strict probe fs
    unfold validate_link
    simp [hm, ha, h1, h2]
    unfold internalTarget rawTarget
    simp [h]

/-- Claim C1 witness: concrete instance of `c1_absolute_url_uses_project_root`
at url `/README.md`, with two different source files. -/
theorem c1_witness :
    rawTarget exDocs exFile "/README.md".toList
      = joinStr (parentPath exDocs) (lstripSlash "/README.md".toList)
    ∧ validate_link false exProbe exFs exDocs exFile "/README.md".toList
      = validate_link false exProbe exFs exDocs ⟨true, ["other".toList]⟩ "/README.md".toList := by
  have h := c1_absolute_url_uses_project_root exDocs exFile ⟨true, ["other".toList]⟩
    "/README.md".toList (by decide)
  exact ⟨h.1, h.2.2 false exProbe exFs⟩

/-- Claim C6: every link whose raw URL starts with `mailto:` or with `#`
validates as Ok (empty error string), for every file system and every
network behaviour — no resolution, no probe. -/
theorem c6_anchor_mailto_ok (strict : Bool) (probe : Str → Probe) (fs : List PyPath)
    (docs_path file_path : PyPath) (url : Str)
    (h : startsWith "mailto:".toList url = true ∨ startsWith ['#'] url = true) :
    validate_link strict probe fs docs_path file_path url = .ok [] := by
  unfold validate_link
  rcases h with h | h
  · simp at h
    simp [h]
  · simp [h]

/-- Claim C6 witness: concrete mailto and anchor links validate Ok. -/
theorem c6_witness :
    validate_link true exProbe exFs exDocs exFile "mailto:a@b.c".toList = .ok []
    ∧ validate_link true exProbe exFs exDocs exFile "#section".toList = .ok [] :=
  ⟨c6_anchor_mailto_ok true exProbe exFs exDocs exFile _ (Or.inl (by decide)),
   c6_anchor_mailto_ok true exProbe exFs exDocs exFile _ (Or.inr (by decide))⟩

/-- Claim C7: in strict mode, an External link whose probe answers a status
code of at least 400 yields the error detail exactly `HTTP <code>` (a Broken
result), and a probe that raises yields the detail
`External link check failed: <cause>` (a CheckFailed result), which differs
from every Broken detail. -/
theorem c7_strict_external (probe : Str → Probe) (fs : List PyPath)
    (docs_path file_path : PyPath) (url : Str)
    (hext : (startsWith "http://".toList url || startsWith "https://".toList url) = true) :
    (∀ code, probe url = .status code → 400 ≤ code →
      validate_link true probe fs docs_path file_path url
        = .ok ("HTTP ".toList ++ natStr code))
    ∧ (∀ msg, probe url = .exc msg →
      validate_link true probe fs docs_path file_path url
        = .ok ("External link check failed: ".toList ++ msg)
      ∧ ∀ code, ("External link check failed: ".toList ++ msg : Str)
          ≠ "HTTP ".toList ++ natStr code) := by
  simp at hext
  have hh : ∃ t, startsWith ('h' :: t) url = true := by
    rcases hext with h | h
    · exact ⟨"ttp://".toList, by simpa using h⟩
    · exact ⟨"ttps://".toList, by simpa using h⟩
  obtain ⟨t, hh⟩ := hh
  have hm : startsWith "mailto:".toList url = false := startsWith_ne_head (by decide) hh
  have ha : startsWith ['#'] url = false := startsWith_ne_head (by decide) hh
  simp at hm
  refine ⟨?_, ?_⟩
  · intro code hp hc
    unfold validate_link
    rcases hext with h | h <;> simp [h, hm, ha, hp, hc]
  · intro msg hp
    refine ⟨?_, ?_⟩
    · unfold validate_link
      rcases hext with h | h <;> simp [h, hm, ha, hp]
    · intro code heq
      have h0 := congrArg List.head? heq
      simp at h0

/-- Claim C7 witness: a 404 probe yields detail `HTTP 404`; a timeout yields
the CheckFailed detail, distinct from every `HTTP <code>` detail. -/
theorem c7_witness :
    validate_link true (fun _ => .status 404) exFs exDocs exFile
      "https://example.com/x".toList = .ok ("HTTP ".toList ++ natStr 404)
    ∧ validate_link true (fun _ => .exc "timed out".toList) exFs exDocs exFile
      "https://example.com/x".toList
      = .ok ("External link check failed: ".toList ++ "timed out".toList)
    ∧ ("External link check failed: ".toList ++ "timed out".toList : Str)
      ≠ "HTTP ".toList ++ natStr 404 := by
  have h1 := (c7_strict_external (fun _ => .status 404) exFs exDocs exFile
    "https://example.com/x".toList (by decide)).1 404 rfl (by decide)
  have h2 := (c7_strict_external (fun _ => .exc "timed out".toList) exFs exDocs exFile
    "https://example.com/x".toList (by decide)).2 "timed out".toList rfl
  exact ⟨h1, h2.1, h2.2 404⟩

/-- Claim C8: with strict mode disabled, every link matching the scheme
`http://` or `https://` validates as Ok for every probe behaviour — the
probe is never consulted. -/
theorem c8_nonstrict_external_ok (probe : Str → Probe) (fs : List PyPath)
    (docs_path file_path : PyPath) (url : Str)
    (hext : (startsWith "http://".toList url || startsWith "https://".toList url) = true) :
    validate_link false probe fs docs_path file_path url = .ok [] := by
  simp at hext
  have hh : ∃ t, startsWith ('h' :: t) url = true := by
    rcases hext with h | h
    · exact ⟨"ttp://".toList, by simpa using h⟩
    · exact ⟨"ttps://".toList, by simpa using h⟩
  obtain ⟨t, hh⟩ := hh
  have hm : startsWith "mailto:".toList url = false := startsWith_ne_head (by decide) hh
  have ha : startsWith ['#'] url = false := startsWith_ne_head (by decide) hh
  simp at hm
  unfold validate_link
  rcases hext with h | h <;> simp [h, hm, ha]

/-- Claim C8 witness: an unreachable https URL validates Ok in non-strict
mode, even under a probe that would report a failure. -/
theorem c8_witness :
    validate_link false (fun _ => .exc "unreachable".toList) exFs exDocs exFile
      "https://anything.invalid".toList = .ok [] :=
  c8_nonstrict_external_ok (fun _ => .exc "unreachable".toList) exFs exDocs exFile
    "https://anything.invalid".toList (by decide)

/-- Claim C9: every link the extractor finds has nonempty display text and a
nonempty URL — a `[](url)` or `[text]()` construct is never extracted, hence
never validated or reported. -/
theorem c9_extractor_nonempty :
    ∀ (line : Str) (tu : Str × Str), tu ∈ findLinks line → tu.1 ≠ [] ∧ tu.2 ≠ [] := by
  intro line tu h
  obtain ⟨t, u⟩ := tu
  exact findLinksAux_nonempty (line.length + 1) line t u h

/-- Claim C9 witness: on a line holding `[](x)`, `[t]()` and `[a](b.md)`,
only the well-formed link is extracted, and it has nonempty parts. -/
theorem c9_witness :
    findLinks "[](x) [t]() [a](b.md)".toList = [("a".toList, "b.md".toList)]
    ∧ ("a".toList, "b.md".toList).1 ≠ [] ∧ ("a".toList, "b.md".toList).2 ≠ [] := by
  refine ⟨by decide, ?_⟩
  exact c9_extractor_nonempty "[](x) [t]() [a](b.md)".toList ("a".toList, "b.md".toList)
    (by decide)

/-- Claim C2 (amended): for an Internal link whose candidate target does not
exist, the code re-joins the candidate's project-root-relative part against
the project root, which reproduces the candidate itself — so the fallback
never finds an alternate: when the candidate lies under the project root the
result is Broken with detail exactly `File not found: <candidate>`, and when
it does not, `Path.relative_to` raises `ValueError` instead of reporting. -/
theorem c2_fallback_amended (strict : Bool) (probe : Str → Probe) (fs : List PyPath)
    (docs_path file_path : PyPath) (url : Str)
    (hm : startsWith "mailto:".toList url = false)
    (ha : startsWith ['#'] url = false)
    (he1 : startsWith "http://".toList url = false)
    (he2 : startsWith "https://".toList url = false)
    (hd : docs_path.abs = true) (hf : file_path.abs = true)
    (hwd : ∀ t ∈ docs_path.segs, WFseg t) (hwf : ∀ t ∈ file_path.segs, WFseg t)
    (hne : pathExists fs (internalTarget docs_path file_path url) = false) :
    ((parentPath docs_path).segs.isPrefixOf (internalTarget docs_path file_path url).segs
        = true →
      validate_link strict probe fs docs_path file_path url
        = .ok ("File not found: ".toList
            ++ pathStr (internalTarget docs_path file_path url)))
    ∧ ((parentPath docs_path).segs.isPrefixOf (internalTarget docs_path file_path url).segs
        = false →
      validate_link strict probe fs docs_path file_path url
        = .error (.valueError (pathStr (internalTarget docs_path file_path url))
            (pathStr (parentPath docs_path)))) := by
  have hv : validate_link strict probe fs docs_path file_path url
      = internalVerdict fs docs_path (internalTarget docs_path file_path url) := by
    unfold validate_link
    simp at hm he1 he2
    simp [hm, ha, he1, he2]
  have htabs : (internalTarget docs_path file_path url).abs = true :=
    internalTarget_abs hd hf url
  have htwf := internalTarget_wf hwd hwf url
  have hdp : (parentPath docs_path).abs = true := hd
  have hv2 : internalVerdict fs docs_path (internalTarget docs_path file_path url)
      = fallbackCheck fs docs_path (internalTarget docs_path file_path url) := by
    rw [internalVerdict, hne, if_neg Bool.false_ne_true]
  constructor
  · intro hpre
    rw [hv, hv2]
    exact fallback_broken hdp htabs htwf hpre hne
  · intro hpre
    rw [hv, hv2]
    exact fallback_raises htabs hpre

/-- Claim C2 counterexample: with docs root `/proj/docs`, source
`/proj/docs/a.md` and url `b.md`, the candidate `/proj/docs/b.md` is missing
but the alternate the claim mandates, `/proj` joined with
`proj/docs/b.md` (i.e. `/proj/proj/docs/b.md`), exists — the claim demands
Ok, yet the code reports Broken. -/
theorem c2_counterexample :
    validate_link false exProbe exFs2 exDocs exFile "b.md".toList
      = .ok ("File not found: /proj/docs/b.md".toList)
    ∧ pathExists exFs2 (claimAltTarget exDocs (internalTarget exDocs exFile "b.md".toList))
      = true :=
  ⟨by decide, by decide⟩

/-- Claim C2 witness: concrete instances of both branches of
`c2_fallback_amended` — a missing sibling yields Broken with the exact
detail, and a `../`-escape raises. -/
theorem c2_witness :
    validate_link false exProbe exFs exDocs exFile "missing.md".toList
      = .ok ("File not found: /proj/docs/missing.md".toList)
    ∧ validate_link false exProbe exFs exDocs exFile "../../x.md".toList
      = .error (.valueError "/x.md".toList "/proj".toList) := by
  constructor
  · have h := (c2_fallback_amended false exProbe exFs exDocs exFile "missing.md".toList
      (by decide) (by decide) (by decide) (by decide) (by decide) (by decide)
      (by decide) (by decide) (by decide)).1 (by decide)
    exact h.trans (by decide)
  · have h := (c2_fallback_amended false exProbe exFs exDocs exFile "../../x.md".toList
      (by decide) (by decide) (by decide) (by decide) (by decide) (by decide)
      (by decide) (by decide) (by decide)).2 (by decide)
    exact h.trans (by decide)

/-- Claim C3 (code bug): a single `../`-relative link whose resolved target
lies outside the project root makes `Path.relative_to` raise `ValueError`;
the exception escapes `validate_file` and `validate_all`, so the sibling
link `[c](b.md)` of the same file is never evaluated and the aggregator
receives no result at all — contradicting the required no-abort behaviour. -/
theorem c3_relative_escape_raises :
    validate_all false exProbe exFs exDocs
      [⟨exFile, .ok "[b](../../x.md)[c](b.md)".toList⟩]
      = .error (.valueError "/x.md".toList "/proj".toList) := by decide

/-- Claim C4 (amended): the fragment is stripped from the resolved
candidate's string form at its first `#`, not from the raw URL before
resolution; for every Internal link that does not take the `../` branch, the
verdict for a URL with a fragment equals the verdict for the same URL with
everything from the first `#` removed.  (In the `../` branch, the URL is
lexically resolved before the strip, and a fragment containing `/` can
change the verdict — see the counterexample.) -/
theorem c4_fragment_amended (strict : Bool) (probe : Str → Probe) (fs : List PyPath)
    (docs_path file_path : PyPath) (url : Str)
    (hm : startsWith "mailto:".toList url = false)
    (ha : startsWith ['#'] url = false)
    (he1 : startsWith "http://".toList url = false)
    (he2 : startsWith "https://".toList url = false)
    (hnp : startsWith ['.', '.', '/'] url = false)
    (hd : docs_path.abs = true) (hf : file_path.abs = true)
    (hwd : ∀ t ∈ docs_path.segs, WFseg t ∧ '#' ∉ t)
    (hwf : ∀ t ∈ file_path.segs, WFseg t ∧ '#' ∉ t) :
    validate_link strict probe fs docs_path file_path url
      = validate_link strict probe fs docs_path file_path (cutHash url) := by
  have hm' : startsWith "mailto:".toList (cutHash url) = false :=
    (startsWith_cutHash (by decide) url).trans hm
  have ha' : startsWith ['#'] (cutHash url) = false := startsWith_hash_cutHash url
  have he1' : startsWith "http://".toList (cutHash url) = false :=
    (startsWith_cutHash (by decide) url).trans he1
  have he2' : startsWith "https://".toList (cutHash url) = false :=
    (startsWith_cutHash (by decide) url).trans he2
  have htgt := internalTarget_cutHash docs_path file_path url hnp hd hf hwd hwf
  unfold validate_link
  simp at hm hm' he1 he2 he1' he2'
  simp [hm, ha, he1, he2, hm', ha', he1', he2', htgt]

/-- Claim C4 counterexample: from `/proj/docs/a.md`, the URL
`../x.md#a/..` validates Ok (its fragment takes part in `..`-resolution and
the candidate collapses to `/proj`, which exists), while the same URL
without its fragment, `../x.md`, is Broken — the two verdicts differ, so
the fragment was not stripped before resolution. -/
theorem c4_counterexample :
    validate_link false exProbe exFs exDocs exFile "../x.md#a/..".toList
      ≠ validate_link false exProbe exFs exDocs exFile
          (cutHash "../x.md#a/..".toList)
    ∧ validate_link false exProbe exFs exDocs exFile "../x.md#a/..".toList = .ok []
    ∧ validate_link false exProbe exFs exDocs exFile (cutHash "../x.md#a/..".toList)
      = .ok ("File not found: /proj/x.md".toList)
    ∧ cutHash "../x.md#a/..".toList = "../x.md".toList :=
  ⟨by decide, by decide, by decide, by decide⟩

/-- Claim C4 witness: concrete instance of `c4_fragment_amended` — the
implicit-relative link `b.md#frag` gets the same verdict as `b.md`. -/
theorem c4_witness :
    validate_link false exProbe exFs2 exDocs exFile "b.md#frag".toList
      = validate_link false exProbe exFs2 exDocs exFile (cutHash "b.md#frag".toList) :=
  c4_fragment_amended false exProbe exFs2 exDocs exFile "b.md#frag".toList
    (by decide) (by decide) (by decide) (by decide) (by decide) (by decide) (by decide)
    (by decide) (by decide)

/-- Claim C5 (amended): the run exits `2` when the root path does not exist,
before any per-file work (the exit is `2` whatever the files or the probe);
it exits `0` when the root exists but holds no markdown file; and when every
file was processed it exits `1` exactly when the recorded error count is
positive — a count that includes Broken links, CheckFailed links, and
unreadable-file errors alike. -/
theorem c5_exit_codes_amended (strict : Bool) (probe : Str → Probe) :
    (∀ fs docs_path files, pathExists fs docs_path = false →
        validate_all strict probe fs docs_path files = .ok 2)
    ∧ (∀ fs docs_path, pathExists fs docs_path = true →
        validate_all strict probe fs docs_path [] = .ok 0)
    ∧ (∀ fs docs_path files results, pathExists fs docs_path = true →
        validate_files strict probe fs docs_path files = .ok results →
        validate_all strict probe fs docs_path files
          = .ok (if 0 < (generate_report results).1 then 1 else 0)) := by
  refine ⟨?_, ?_, ?_⟩
  · intro fs docs_path files h
    unfold validate_all
    rw [h]
    rfl
  · intro fs docs_path h
    unfold validate_all
    rw [h]
    rfl
  · intro fs docs_path files results hex hv
    cases files with
    | nil =>
      unfold validate_files at hv
      simp only [Except.ok.injEq] at hv
      unfold validate_all
      rw [hex, ← hv]
      rfl
    | cons f rest =>
      unfold validate_all
      rw [hex]
      simp only [Bool.not_true, Bool.false_eq_true, if_false, List.isEmpty_cons]
      rw [hv]
      rfl

/-- Claim C5 counterexample: a run over one unreadable markdown file
completes with zero Broken and zero CheckFailed link results — its only
recorded error is the read failure — yet the exit code is `1`, not the `0`
the claim requires. -/
theorem c5_counterexample :
    validate_all false exProbe exFs exDocs
      [⟨exFile, .error "Permission denied".toList⟩] = .ok 1
    ∧ validate_file false exProbe exFs exDocs ⟨exFile, .error "Permission denied".toList⟩
      = .ok ⟨exFile, [.readErr "Cannot read file: Permission denied".toList], [], []⟩ :=
  ⟨by decide, by decide⟩

/-- Claim C5 witness: concrete instances of the three cases of
`c5_exit_codes_amended` — missing root, empty root, and a processed file. -/
theorem c5_witness :
    validate_all false exProbe exFs ⟨true, ["nope".toList]⟩
      [⟨exFile, .ok "[a](a.md)".toList⟩] = .ok 2
    ∧ validate_all false exProbe exFs exDocs [] = .ok 0
    ∧ validate_all false exProbe exFs exDocs [⟨exFile, .ok "[a](a.md)".toList⟩]
      = .ok (if 0 < (generate_report [⟨exFile, [], [], []⟩]).1 then 1 else 0) := by
  refine ⟨?_, ?_, ?_⟩
  · exact (c5_exit_codes_amended false exProbe).1 exFs ⟨true, ["nope".toList]⟩
      [⟨exFile, .ok "[a](a.md)".toList⟩] (by decide)
  · exact (c5_exit_codes_amended false exProbe).2.1 exFs exDocs (by decide)
  · exact (c5_exit_codes_amended false exProbe).2.2 exFs exDocs
      [⟨exFile, .ok "[a](a.md)".toList⟩] [⟨exFile, [], [], []⟩] (by decide) (by decide)

/-- Claim C10: the `warnings` and `fixed` lists of every file result stay
empty — no operation appends to them — so the report's warning and fixed
counts are always `0`, and when a run reaches the report its exit code is
determined by the error count alone. -/
theorem c10_no_warnings_fixed (strict : Bool) (probe : Str → Probe) (fs : List PyPath)
    (docs_path : PyPath) :
    (∀ f r, validate_file strict probe fs docs_path f = .ok r →
        r.warnings = [] ∧ r.fixed = [])
    ∧ (∀ files results, validate_files strict probe fs docs_path files = .ok results →
        (generate_report results).2.1 = 0 ∧ (generate_report results).2.2 = 0)
    ∧ (∀ files results, pathExists fs docs_path = true → files ≠ [] →
        validate_files strict probe fs docs_path files = .ok results →
        validate_all strict probe fs docs_path files
          = .ok (if 0 < (generate_report results).1 then 1 else 0)) := by
  refine ⟨fun f r h => validate_file_no_warn h, ?_, ?_⟩
  · intro files results h
    have hz := validate_files_no_warn files results h
    unfold generate_report
    constructor
    · exact foldl_add_of_all_zero (fun r => r.warnings.length) results 0
        (fun r hr => by show r.warnings.length = 0; rw [(hz r hr).1]; rfl)
    · exact foldl_add_of_all_zero (fun r => r.fixed.length) results 0
        (fun r hr => by show r.fixed.length = 0; rw [(hz r hr).2]; rfl)
  · intro files results hex hne hv
    cases files with
    | nil => exact absurd rfl hne
    | cons f rest =>
      unfold validate_all
      rw [hex]
      simp only [Bool.not_true, Bool.false_eq_true, if_false, List.isEmpty_cons]
      rw [hv]
      rfl

/-- Claim C10 witness: concrete instances of the three parts of
`c10_no_warnings_fixed` on a one-file run. -/
theorem c10_witness :
    ((⟨exFile, [], [], []⟩ : FileResult).warnings = []
      ∧ (⟨exFile, [], [], []⟩ : FileResult).fixed = [])
    ∧ ((generate_report [⟨exFile, [], [], []⟩]).2.1 = 0
      ∧ (generate_report [⟨exFile, [], [], []⟩]).2.2 = 0)
    ∧ validate_all false exProbe exFs exDocs [⟨exFile, .ok "[a](a.md)".toList⟩]
      = .ok (if 0 < (generate_report [⟨exFile, [], [], []⟩]).1 then 1 else 0) := by
  refine ⟨?_, ?_, ?_⟩
  · exact (c10_no_warnings_fixed false exProbe exFs exDocs).1
      ⟨exFile, .ok "[a](a.md)".toList⟩ ⟨exFile, [], [], []⟩ (by decide)
  · exact (c10_no_warnings_fixed false exProbe exFs exDocs).2.1
      [⟨exFile, .ok "[a](a.md)".toList⟩] [⟨exFile, [], [], []⟩] (by decide)
  · exact (c10_no_warnings_fixed false exProbe exFs exDocs).2.2
      [⟨exFile, .ok "[a](a.md)".toList⟩] [⟨exFile, [], [], []⟩] (by decide)
      (List.cons_ne_nil _ _) (by decide)

end ValidateLinks
